import Mathlib

/-!
Verification of the rombp patch engine (IPS decoder and patch controller).

The definitions below are a shallow embedding of the C sources:
  * `src/src/ips.c`      — the IPS decoder (`copy_file`, `ips_start`,
    `ips_next_hunk_header`, `ips_get_rle_payload`, `ips_write_rle_hunk`,
    `ips_write_hunk`, `ips_patch_hunk`, `ips_next`);
  * `src/unnamed/part_000` — the patch controller (`detect_patch_type`,
    `execute_patch`, the status-publication loop).

Files are modelled as byte lists with an explicit position.  Machine
integers are modelled as `Nat` with explicit `% 256` masking where the C
code masks with `& 0xFF`.  A read-only stream carries an optional fault
point that models an OS-level read failure (`ferror`), distinct from a
short read at end-of-file (`feof`).  Writing through a file position past
the current end of the file fills the gap with zero bytes, the POSIX
behaviour of `fseek` past EOF followed by `fwrite` on Linux.
-/

namespace Rombp

/-- `be_16bit_int` from `src/src/ips.c`: big-endian `u16` of two bytes,
`((buf[0] << 8) & 0xFF00) | (buf[1] & 0x00FF)` written arithmetically. -/
def be_16bit_int (b0 b1 : Nat) : Nat := (b0 % 256) * 256 + b1 % 256

/-- `be_24bit_int` from `src/src/ips.c`: big-endian `u24` of three bytes,
`((buf[0] << 16) & 0xFF0000) | ((buf[1] << 8) & 0xFF00) | (buf[2] & 0xFF)`. -/
def be_24bit_int (b0 b1 b2 : Nat) : Nat :=
  (b0 % 256) * 65536 + (b1 % 256) * 256 + b2 % 256

/-- `BUF_SIZE` from `src/src/ips.c`: the 32768-byte internal buffer. -/
def BUF_SIZE : Nat := 32768

/-- A read-only sequential file (the patch file or the source file):
its bytes, the current position, and an optional fault point modelling an
OS-level read failure: a read that needs any byte at index `≥ failAt`
fails with `ferror` set. -/
structure InStream where
  data : List Nat
  pos : Nat
  failAt : Option Nat
deriving DecidableEq, Repr

/-- The bytes a successful `fread` of `n` bytes returns (short at EOF). -/
def InStream.peek (s : InStream) (n : Nat) : List Nat :=
  (s.data.drop s.pos).take n

/-- Advance the position by `k` bytes. -/
def InStream.advance (s : InStream) (k : Nat) : InStream :=
  ⟨s.data, s.pos + k, s.failAt⟩

/-- Does an `fread` of `n` bytes at the current position hit the fault? -/
def InStream.readFails (s : InStream) (n : Nat) : Bool :=
  match s.failAt with
  | some f => decide (f < s.pos + n)
  | Option.none => false

/-- `fread(buf, 1, n, file)`: `none` models an OS read failure (`ferror`);
`some bs` returns the bytes read, short exactly when EOF is reached. -/
def InStream.read (s : InStream) (n : Nat) : Option (List Nat) × InStream :=
  if s.readFails n then (Option.none, s)
  else (some (s.peek n), s.advance (s.peek n).length)

/-- `fseek(file, p, SEEK_SET)` on a read-only stream. -/
def InStream.seek (s : InStream) (p : Nat) : InStream :=
  ⟨s.data, p, s.failAt⟩

/-- The output file: its bytes and the current write position. -/
structure OutFile where
  data : List Nat
  pos : Nat
deriving DecidableEq, Repr

/-- Overlay `bs` on `d` starting at index `p`; if `p` lies past the end of
`d` the gap is filled with zero bytes (a filesystem hole). -/
def overwriteAt (d : List Nat) (p : Nat) (bs : List Nat) : List Nat :=
  (d.take p ++ List.replicate (p - d.length) 0) ++ bs ++ d.drop (p + bs.length)

/-- `fwrite(buf, 1, bs.length, file)` at the current position. -/
def OutFile.write (f : OutFile) (bs : List Nat) : OutFile :=
  ⟨overwriteAt f.data f.pos bs, f.pos + bs.length⟩

/-- `fseek(file, p, SEEK_SET)` on the output file. -/
def OutFile.seek (f : OutFile) (p : Nat) : OutFile :=
  ⟨f.data, p⟩

/-- The body of `copy_file`'s read/write loop (`src/src/ips.c:34-50`),
returning the bytes written to the output file.  Mirrors the C loop: a
read that comes back short (fewer than `BUF_SIZE` bytes, i.e. the
remaining input is shorter than the buffer) returns success *before* the
short chunk is written; only full `BUF_SIZE` chunks are ever written. -/
def copy_file_loop (rem : List Nat) : List Nat :=
  if _h : rem.length < BUF_SIZE then []
  else rem.take BUF_SIZE ++ copy_file_loop (rem.drop BUF_SIZE)
termination_by rem.length
decreasing_by
  simp only [List.length_drop]
  have hb : 0 < BUF_SIZE := by norm_num [BUF_SIZE]
  omega

/-- `ips_start` (`src/src/ips.c:55-64`): copy the source file to the
freshly truncated output file via `copy_file`. -/
def ips_start (input : List Nat) : OutFile :=
  ⟨copy_file_loop input, (copy_file_loop input).length⟩

/-- Result of `ips_next_hunk_header`: `HUNK_NEXT` with the decoded
preamble, `HUNK_DONE`, or `HUNK_ERR_` + `IO` (an I/O error). -/
inductive HeaderRes where
  | next (offset length : Nat)
  | done
  | ioError
deriving DecidableEq, Repr

/-- `ips_next_hunk_header` (`src/src/ips.c:112-137`): read the 5-byte hunk
preamble; a short read with `ferror` is an I/O error, a short read at
`feof` is `HUNK_DONE`; otherwise decode offset (u24 BE) and length
(u16 BE).  Note: the C code performs no comparison of the preamble bytes
against the ASCII `EOF` tag. -/
def ips_next_hunk_header (s : InStream) : HeaderRes × InStream :=
  match s.read 5 with
  | (Option.none, s') => (.ioError, s')
  | (some bs, s') =>
    match bs with
    | [b0, b1, b2, b3, b4] =>
      (.next (be_24bit_int b0 b1 b2) (be_16bit_int b3 b4), s')
    | _ => (.done, s')

/-- `ips_get_rle_payload` (`src/src/ips.c:90-110`): read 3 bytes; decode
the RLE length (u16 BE) and the byte value; a short read (error or EOF)
returns failure. -/
def ips_get_rle_payload (s : InStream) : Option (Nat × Nat) × InStream :=
  match s.read 3 with
  | (Option.none, s') => (Option.none, s')
  | (some bs, s') =>
    match bs with
    | [b0, b1, b2] => (some (be_16bit_int b0 b1, b2), s')
    | _ => (Option.none, s')

/-- `ips_write_rle_hunk` (`src/src/ips.c:142-156`): write the RLE value
`n` times, one byte per `fwrite` call. -/
def ips_write_rle_hunk (out : OutFile) : Nat → Nat → OutFile
  | 0, _ => out
  | n + 1, v => ips_write_rle_hunk (out.write [v]) n v

/-- `ips_write_hunk` (`src/src/ips.c:161-191`): copy `rem` payload bytes
from the patch stream to the output in chunks of `min BUF_SIZE rem`; a
short read (error or unexpected EOF) fails.  Returns the success flag and
the two file states as the C code leaves them. -/
def ips_write_hunk (s : InStream) (out : OutFile) (rem : Nat) :
    Bool × InStream × OutFile :=
  if _h : rem = 0 then (true, s, out)
  else
    match s.read (min BUF_SIZE rem) with
    | (Option.none, s') => (false, s', out)
    | (some bs, s') =>
      if bs.length < min BUF_SIZE rem then (false, s', out)
      else ips_write_hunk s' (out.write bs) (rem - min BUF_SIZE rem)
termination_by rem
decreasing_by
  have hm : 0 < min BUF_SIZE rem := by
    have : 0 < BUF_SIZE := by norm_num [BUF_SIZE]
    omega
  omega

/-- `ips_patch_hunk` (`src/src/ips.c:193-235`): seek the output file to
the hunk offset, then either decode and write an RLE hunk (length field
0) or copy a raw payload.  Returns the success flag and the file states
exactly as the C code leaves them on every path. -/
def ips_patch_hunk (offset length : Nat) (s : InStream) (out : OutFile) :
    Bool × InStream × OutFile :=
  let out1 := out.seek offset
  if length = 0 then
    match ips_get_rle_payload s with
    | (Option.none, s') => (false, s', out1)
    | (some (rleLen, rleVal), s') => (true, s', ips_write_rle_hunk out1 rleLen rleVal)
  else
    ips_write_hunk s out1 length

/-- `rombp_hunk_iter_status`: `HUNK_NEXT`, `HUNK_DONE`, `HUNK_ERR_` + `IO`
and `HUNK_NONE`. -/
inductive HunkStatus where
  | next
  | done
  | ioError
  | hunkNone
deriving DecidableEq, Repr

/-- `ips_next` (`src/src/ips.c:237-256`): read the next hunk preamble and
apply the hunk; the unused source-file handle is omitted. -/
def ips_next (out : OutFile) (s : InStream) : HunkStatus × OutFile × InStream :=
  match ips_next_hunk_header s with
  | (.ioError, s') => (.ioError, out, s')
  | (.done, s') => (.done, out, s')
  | (.next off len, s') =>
    match ips_patch_hunk off len s' out with
    | (false, s'', out') => (.ioError, out', s'')
    | (true, s'', out') => (.next, out', s'')

/-- A read leaves the underlying bytes and the fault point unchanged and
never moves the position backwards. -/
theorem InStream.read_progress (s : InStream) (n : Nat) :
    (s.read n).2.data = s.data ∧ s.pos ≤ (s.read n).2.pos ∧
      (s.read n).2.failAt = s.failAt := by
  unfold InStream.read
  by_cases hf : s.readFails n
  · simp [hf]
  · simp [hf, InStream.advance]

/-- A successful read returns at most the requested number of bytes. -/
theorem InStream.read_length_le (s : InStream) (n : Nat) (bs : List Nat)
    (h : (s.read n).1 = some bs) : bs.length ≤ n := by
  unfold InStream.read at h
  by_cases hf : s.readFails n
  · simp [hf] at h
  · simp only [hf, Bool.false_eq_true, not_false_iff, if_false] at h
    have hbs : bs = s.peek n := by simpa using h.symm
    subst hbs
    simp only [InStream.peek, List.length_take, List.length_drop]
    omega

/-- A successful, full read of `n > 0` bytes advances the position by
exactly `n` and witnesses that `n` bytes were available. -/
theorem InStream.read_full (s : InStream) (n : Nat) (bs : List Nat)
    (hn : 0 < n) (h : (s.read n).1 = some bs) (hl : bs.length = n) :
    (s.read n).2 = ⟨s.data, s.pos + n, s.failAt⟩ ∧ s.pos + n ≤ s.data.length := by
  unfold InStream.read at h ⊢
  by_cases hf : s.readFails n
  · simp [hf] at h
  · simp only [hf, Bool.false_eq_true, not_false_iff, if_false] at h ⊢
    have hbs : bs = s.peek n := by simpa using h.symm
    have hlen : (s.peek n).length = min n (s.data.length - s.pos) := by
      simp [InStream.peek]
    have hmin : min n (s.data.length - s.pos) = n := by
      rw [← hlen, ← hbs]
      exact hl
    have havail : s.pos + n ≤ s.data.length := by omega
    refine ⟨?_, havail⟩
    have hblen : (s.peek n).length = n := by rw [← hbs]; exact hl
    simp [InStream.advance, hblen]

/-- `ips_get_rle_payload` leaves the data and fault point unchanged and
never moves the position backwards. -/
theorem ips_get_rle_payload_progress (s : InStream) :
    (ips_get_rle_payload s).2.data = s.data ∧
      s.pos ≤ (ips_get_rle_payload s).2.pos ∧
      (ips_get_rle_payload s).2.failAt = s.failAt := by
  unfold ips_get_rle_payload
  have h := InStream.read_progress s 3
  rcases hr : s.read 3 with ⟨b, s'⟩
  rw [hr] at h
  match b with
  | Option.none => simpa using h
  | some bs =>
    match bs with
    | [] => simpa using h
    | [b0] => simpa using h
    | [b0, b1] => simpa using h
    | [b0, b1, b2] => simpa using h
    | b0 :: b1 :: b2 :: b3 :: t => simpa using h

/-- `ips_write_hunk` leaves the stream's data and fault point unchanged
and never moves the position backwards. -/
theorem ips_write_hunk_progress (s : InStream) (out : OutFile) (rem : Nat) :
    (ips_write_hunk s out rem).2.1.data = s.data ∧
      s.pos ≤ (ips_write_hunk s out rem).2.1.pos ∧
      (ips_write_hunk s out rem).2.1.failAt = s.failAt := by
  induction s, out, rem using ips_write_hunk.induct with
  | case1 s out => simp [ips_write_hunk]
  | case2 s out rem hrem s' hread =>
    rw [ips_write_hunk, dif_neg hrem, hread]
    have h := InStream.read_progress s (min BUF_SIZE rem)
    rw [hread] at h
    simpa using h
  | case3 s out rem hrem bs s' hread hshort =>
    rw [ips_write_hunk, dif_neg hrem, hread]
    dsimp only
    rw [if_pos hshort]
    have h := InStream.read_progress s (min BUF_SIZE rem)
    rw [hread] at h
    simpa using h
  | case4 s out rem hrem bs s' hread hshort ih =>
    rw [ips_write_hunk, dif_neg hrem, hread]
    dsimp only
    rw [if_neg hshort]
    have h := InStream.read_progress s (min BUF_SIZE rem)
    rw [hread] at h
    simp only at h
    exact ⟨by rw [ih.1, h.1], le_trans h.2.1 ih.2.1, by rw [ih.2.2, h.2.2]⟩

/-- `ips_patch_hunk` leaves the stream's data and fault point unchanged
and never moves the position backwards. -/
theorem ips_patch_hunk_progress (offset length : Nat) (s : InStream) (out : OutFile) :
    (ips_patch_hunk offset length s out).2.1.data = s.data ∧
      s.pos ≤ (ips_patch_hunk offset length s out).2.1.pos ∧
      (ips_patch_hunk offset length s out).2.1.failAt = s.failAt := by
  unfold ips_patch_hunk
  by_cases hl : length = 0
  · simp only [hl, if_pos]
    have h := ips_get_rle_payload_progress s
    rcases hr : ips_get_rle_payload s with ⟨b, s'⟩
    rw [hr] at h
    match b with
    | Option.none => simpa using h
    | some (rl, rv) => simpa using h
  · simp only [hl, if_neg, not_false_iff]
    exact ips_write_hunk_progress s (out.seek offset) length

/-- When `ips_next_hunk_header` decodes a preamble, the full 5 bytes were
available and consumed. -/
theorem ips_next_hunk_header_next (s : InStream) (off len : Nat) (s1 : InStream)
    (h : ips_next_hunk_header s = (.next off len, s1)) :
    s1 = ⟨s.data, s.pos + 5, s.failAt⟩ ∧ s.pos + 5 ≤ s.data.length := by
  unfold ips_next_hunk_header at h
  rcases hr : s.read 5 with ⟨b, s2⟩
  rw [hr] at h
  match b with
  | Option.none => simp at h
  | some bs =>
    match bs with
    | [] => simp at h
    | [b0] => simp at h
    | [b0, b1] => simp at h
    | [b0, b1, b2] => simp at h
    | [b0, b1, b2, b3] => simp at h
    | [b0, b1, b2, b3, b4] =>
      simp only [Prod.mk.injEq, HeaderRes.next.injEq] at h
      have hfull := InStream.read_full s 5 [b0, b1, b2, b3, b4] (by norm_num)
        (by rw [hr]) (by simp)
      rw [hr] at hfull
      simp only at hfull
      exact ⟨h.2 ▸ hfull.1, hfull.2⟩
    | b0 :: b1 :: b2 :: b3 :: b4 :: b5 :: t =>
      exfalso
      have hle := InStream.read_length_le s 5 (b0 :: b1 :: b2 :: b3 :: b4 :: b5 :: t)
        (by rw [hr])
      simp at hle

/-- When `ips_next` reports a further hunk it has consumed at least the
5-byte preamble: the stream data is unchanged and the position strictly
advanced from inside the data. -/
theorem ips_next_progress (out : OutFile) (s : InStream) (out' : OutFile)
    (s' : InStream) (h : ips_next out s = (.next, out', s')) :
    s'.data = s.data ∧ s.pos < s'.pos ∧ s.pos < s.data.length := by
  unfold ips_next at h
  rcases hh : ips_next_hunk_header s with ⟨res, s1⟩
  rw [hh] at h
  match res with
  | .ioError => simp at h
  | .done => simp at h
  | .next off len =>
    obtain ⟨hs1, hava⟩ := ips_next_hunk_header_next s off len s1 hh
    dsimp only at h
    have hp := ips_patch_hunk_progress off len s1 out
    rcases hph : ips_patch_hunk off len s1 out with ⟨ok, s'', out''⟩
    rw [hph] at h hp
    match ok with
    | false => simp at h
    | true =>
      simp only [Prod.mk.injEq] at h
      obtain ⟨-, -, hss⟩ := h
      simp only at hp
      have hd1 : s1.data = s.data := by rw [hs1]
      have hp1 : s1.pos = s.pos + 5 := by rw [hs1]
      refine ⟨?_, ?_, ?_⟩
      · rw [← hss, hp.1, hd1]
      · rw [← hss]
        omega
      · omega

/-- `rombp_patch_err`: the controller's error taxonomy.  `ok` is
`PATCH_OK`, `errIo` is the I/O error kind, `unknownType` is
`PATCH_UNKNOWN_TYPE`, `failedToStart` is `PATCH_FAILED_TO_START`, and the
two BPS validation kinds complete the enum. -/
inductive PatchErr where
  | ok
  | errIo
  | unknownType
  | failedToStart
  | invalidOutputSize
  | invalidOutputChecksum
deriving DecidableEq, Repr

/-- `IPS_EXPECTED_MARKER` (`src/src/ips.c:66-68`): ASCII `PATCH`. -/
def IPS_EXPECTED_MARKER : List Nat := [0x50, 0x41, 0x54, 0x43, 0x48]

/-- ASCII `BPS1`, the BPS marker described in the spec (§4.4). -/
def BPS_EXPECTED_MARKER : List Nat := [0x42, 0x50, 0x53, 0x31]

/-- Modelled from the spec: `patch_verify_marker` lives in a source file
of this repository that is not under `src/` (only its callers
`ips_verify_marker` and `detect_patch_type` are).  Per §4.3/§4.6 it reads
`marker.length` bytes from the stream's current position and succeeds
exactly when they equal the expected marker, leaving the position just
past the marker. -/
def patch_verify_marker (s : InStream) (marker : List Nat) : Bool × InStream :=
  match s.read marker.length with
  | (Option.none, s') => (false, s')
  | (some bs, s') => (decide (bs = marker), s')

/-- `ips_verify_marker` (`src/src/ips.c:71-73`). -/
def ips_verify_marker (s : InStream) : Bool × InStream :=
  patch_verify_marker s IPS_EXPECTED_MARKER

/-- Modelled from the spec: `bps_verify_marker` lives in `bps.c`, which is
not under `src/`; per §4.4 the first 4 bytes must be ASCII `BPS1`. -/
def bps_verify_marker (s : InStream) : Bool × InStream :=
  patch_verify_marker s BPS_EXPECTED_MARKER

/-- `rombp_patch_type`. -/
inductive PatchType where
  | ips
  | bps
  | unknown
deriving DecidableEq, Repr

/-- `detect_patch_type` (`src/unnamed/part_000:33-56`): try the IPS
marker; on mismatch rewind the patch file to position 0 and try the BPS
marker; otherwise the type is unknown. -/
def detect_patch_type (s : InStream) : PatchType × InStream :=
  match ips_verify_marker s with
  | (true, s1) => (.ips, s1)
  | (false, s1) =>
    match bps_verify_marker (s1.seek 0) with
    | (true, s2) => (.bps, s2)
    | (false, s2) => (.unknown, s2)

/-- `rombp_patch_status`: the progress record
`{ hunk_count, iter_status, err, is_done }`. -/
structure rombp_patch_status where
  hunk_count : Nat
  iter_status : HunkStatus
  err : PatchErr
  is_done : Bool
deriving DecidableEq, Repr

/-- Modelled from the spec: `patch_status_init` lives in a source file of
this repository that is not under `src/`.  Per §3/§5 the progress record
starts with a zero hunk count, no iteration status, no error and
`is_done = false`. -/
def patch_status_init : rombp_patch_status :=
  ⟨0, .hunkNone, .ok, false⟩

/-- `ips_next` never returns `HUNK_NONE`; only `next_hunk`'s default
branch for an unknown patch type does, and that is unreachable once the
type is resolved. -/
theorem ips_next_fst_ne_hunkNone (out : OutFile) (s : InStream) :
    (ips_next out s).1 ≠ .hunkNone := by
  unfold ips_next
  rcases hh : ips_next_hunk_header s with ⟨res, s1⟩
  match res with
  | .ioError => simp
  | .done => simp
  | .next off len =>
    dsimp only
    rcases hph : ips_patch_hunk off len s1 out with ⟨ok, s'', out''⟩
    match ok with
    | false => simp
    | true => simp

/-- The hunk-iteration loop of `execute_patch`
(`src/unnamed/part_000:236-259`) specialized to the IPS decoder, together
with the `HUNK_DONE` / `HUNK_ERR_` + `IO` exits: on `HUNK_DONE` the error
becomes `end_patch` for IPS, which is `PATCH_OK`
(`src/unnamed/part_000:91-99`); on an I/O error it becomes the I/O error
kind.  Returns the final error, the output and patch files as left by the
last iteration, and the hunk count. -/
def ipsLoop (s : InStream) (out : OutFile) (hc : Nat) :
    PatchErr × OutFile × InStream × Nat :=
  match h : ips_next out s with
  | (.done, out', s') => (.ok, out', s', hc)
  | (.ioError, out', s') => (.errIo, out', s', hc)
  | (.hunkNone, out', s') =>
    False.elim (ips_next_fst_ne_hunkNone out s (by rw [h]))
  | (.next, out', s') => ipsLoop s' out' (hc + 1)
termination_by s.data.length - s.pos
decreasing_by
  have hp := ips_next_progress out s out' s' h
  have hd : s'.data.length = s.data.length := by rw [hp.1]
  omega

/-- The result of one apply: the final published status and the bytes of
the output file left on disk. -/
structure ApplyResult where
  status : rombp_patch_status
  output : List Nat
deriving DecidableEq, Repr

/-- `execute_patch` (`src/unnamed/part_000:205-268`) for the formats whose
decoder source is available, i.e. everything except a patch carrying the
BPS marker (the BPS decoder lives in `bps.c`, which is not under `src/`;
a BPS patch yields `Option.none` here and no claim depends on it).  The
three files open successfully; the patch type is sniffed; for IPS the
source is copied to the output by `ips_start` and the hunk loop runs to
its terminal status; for an unknown type the apply ends at once with
`PATCH_UNKNOWN_TYPE`.  The final status has `is_done = true`. -/
def executePatchNonBps (src patch : List Nat) : Option ApplyResult :=
  let ps : InStream := ⟨patch, 0, Option.none⟩
  match detect_patch_type ps with
  | (.unknown, _) =>
    some ⟨⟨0, .done, .unknownType, true⟩, []⟩
  | (.bps, _) => Option.none
  | (.ips, ps1) =>
    let out0 := ips_start src
    let r := ipsLoop ps1 out0 0
    some ⟨⟨r.2.2.2, (if r.1 = .ok then .done else .ioError), r.1, true⟩,
      r.2.1.data⟩

/-- The pad-to-position prefix of `overwriteAt` has length exactly `p`. -/
theorem overwriteAt_prefix_length (d : List Nat) (p : Nat) :
    (d.take p ++ List.replicate (p - d.length) 0).length = p := by
  simp
  omega

/-- Length of the overlaid file. -/
theorem overwriteAt_length (d : List Nat) (p : Nat) (bs : List Nat) :
    (overwriteAt d p bs).length = max (p + bs.length) d.length := by
  unfold overwriteAt
  simp
  omega

/-- Reading inside the overlaid region returns the written bytes. -/
theorem overwriteAt_getElem_inside (d : List Nat) (p : Nat) (bs : List Nat)
    (i : Nat) (h1 : p ≤ i) (h2 : i < p + bs.length) :
    (overwriteAt d p bs)[i]? = bs[i - p]? := by
  unfold overwriteAt
  rw [List.append_assoc, List.getElem?_append_right
    (by rw [overwriteAt_prefix_length]; exact h1)]
  rw [overwriteAt_prefix_length]
  rw [List.getElem?_append]
  rw [if_pos (by omega)]

/-- Reading strictly before the overlaid region at an index that existed
before is unchanged. -/
theorem overwriteAt_getElem_before (d : List Nat) (p : Nat) (bs : List Nat)
    (i : Nat) (b : Nat) (h1 : i < p) (h2 : d[i]? = some b) :
    (overwriteAt d p bs)[i]? = some b := by
  unfold overwriteAt
  have hi : i < d.length := (List.getElem?_eq_some.1 h2).1
  rw [List.append_assoc, List.getElem?_append]
  rw [overwriteAt_prefix_length, if_pos h1]
  rw [List.getElem?_append]
  rw [List.length_take, if_pos (by omega)]
  rw [List.getElem?_take, if_pos h1]
  exact h2

/-- Reading strictly before the write position, at an index inside the
existing data, is unchanged. -/
theorem overwriteAt_getElem_lt_pos (d : List Nat) (p : Nat) (bs : List Nat)
    (i : Nat) (h1 : i < p) (h2 : i < d.length) :
    (overwriteAt d p bs)[i]? = d[i]? := by
  unfold overwriteAt
  rw [List.append_assoc, List.getElem?_append]
  rw [overwriteAt_prefix_length, if_pos h1]
  rw [List.getElem?_append]
  rw [List.length_take, if_pos (by omega)]
  rw [List.getElem?_take, if_pos h1]

/-- Reading at or past the end of the overlaid region is unchanged. -/
theorem overwriteAt_getElem_after (d : List Nat) (p : Nat) (bs : List Nat)
    (i : Nat) (h1 : p + bs.length ≤ i) :
    (overwriteAt d p bs)[i]? = d[i]? := by
  unfold overwriteAt
  rw [List.append_assoc, List.getElem?_append_right
    (by rw [overwriteAt_prefix_length]; omega)]
  rw [overwriteAt_prefix_length]
  rw [List.getElem?_append_right (by omega)]
  rw [List.getElem?_drop]
  congr 1
  omega

/-- Reading in the zero-filled gap between the old end of file and the
write position returns a hole byte. -/
theorem overwriteAt_getElem_hole (d : List Nat) (p : Nat) (bs : List Nat)
    (i : Nat) (h1 : d.length ≤ i) (h2 : i < p) :
    (overwriteAt d p bs)[i]? = some 0 := by
  unfold overwriteAt
  rw [List.append_assoc, List.getElem?_append]
  rw [overwriteAt_prefix_length, if_pos h2]
  rw [List.getElem?_append_right (by simp; omega)]
  rw [List.getElem?_replicate, if_pos (by simp; omega)]

/-- Two consecutive writes are one write of the concatenated bytes. -/
theorem overwriteAt_overwriteAt (d : List Nat) (p : Nat) (a b : List Nat) :
    overwriteAt (overwriteAt d p a) (p + a.length) b = overwriteAt d p (a ++ b) := by
  apply List.ext_getElem?
  intro i
  by_cases h1 : i < p + a.length
  · have hlen1 : (overwriteAt d p a).length = max (p + a.length) d.length :=
      overwriteAt_length d p a
    rw [overwriteAt_getElem_lt_pos _ _ b i h1 (by rw [hlen1]; omega)]
    by_cases h2 : p ≤ i
    · rw [overwriteAt_getElem_inside _ _ _ i h2 h1,
        overwriteAt_getElem_inside _ _ _ i h2
          (by simp only [List.length_append]; omega)]
      rw [List.getElem?_append]
      rw [if_pos (by omega)]
    · push_neg at h2
      by_cases hdl : d.length ≤ i
      · rw [overwriteAt_getElem_hole d p a i hdl h2]
        rw [overwriteAt_getElem_hole d p (a ++ b) i hdl h2]
      · push_neg at hdl
        have hd : d[i]? = some d[i] := List.getElem?_eq_getElem hdl
        rw [overwriteAt_getElem_before _ _ a i _ h2 hd,
          overwriteAt_getElem_before _ _ _ i _ h2 hd]
  · push_neg at h1
    by_cases h2 : i < p + a.length + b.length
    · rw [overwriteAt_getElem_inside _ _ _ i h1 (by omega),
        overwriteAt_getElem_inside _ _ _ i (by omega)
          (by simp only [List.length_append]; omega)]
      rw [List.getElem?_append_right (by omega)]
      congr 1
      omega
    · push_neg at h2
      rw [overwriteAt_getElem_after _ _ _ i (by omega),
        overwriteAt_getElem_after _ _ _ i (by omega),
        overwriteAt_getElem_after _ _ _ i
          (by simp only [List.length_append]; omega)]

/-- Two consecutive `fwrite`s append into one. -/
theorem OutFile.write_write (f : OutFile) (a b : List Nat) :
    (f.write a).write b = f.write (a ++ b) := by
  unfold OutFile.write
  simp only [OutFile.mk.injEq]
  constructor
  · exact overwriteAt_overwriteAt f.data f.pos a b
  · simp only [List.length_append]
    omega

/-- `ips_write_rle_hunk` is one write of `n` copies of the value (and for
`n = 0` no write at all). -/
theorem ips_write_rle_hunk_eq (out : OutFile) (n v : Nat) :
    ips_write_rle_hunk out n v =
      if n = 0 then out else out.write (List.replicate n v) := by
  induction n generalizing out with
  | zero => simp [ips_write_rle_hunk]
  | succ n ih =>
    rw [ips_write_rle_hunk, ih]
    by_cases hn : n = 0
    · subst hn
      simp [List.replicate]
    · rw [if_neg hn, if_neg (by omega), OutFile.write_write]
      congr 1

/-- A fault-free `fread` with the request fully available returns exactly
the requested bytes. -/
theorem InStream.read_avail (s : InStream) (n : Nat)
    (hf : s.failAt = Option.none) (hav : s.pos + n ≤ s.data.length) :
    s.read n = (some ((s.data.drop s.pos).take n),
      ⟨s.data, s.pos + n, Option.none⟩) := by
  unfold InStream.read
  have hfail : s.readFails n = false := by
    unfold InStream.readFails
    rw [hf]
  rw [hfail]
  simp only [Bool.false_eq_true, if_false, InStream.peek, InStream.advance]
  have hlen : ((s.data.drop s.pos).take n).length = n := by
    simp
    omega
  rw [hlen, hf]

/-- When the whole payload is available in a fault-free patch stream,
`ips_write_hunk` succeeds, consumes exactly `rem` bytes and writes them to
the output. -/
theorem ips_write_hunk_avail : ∀ (rem : Nat) (s : InStream) (out : OutFile),
    s.failAt = Option.none → s.pos + rem ≤ s.data.length → 0 < rem →
    ips_write_hunk s out rem =
      (true, ⟨s.data, s.pos + rem, Option.none⟩,
        out.write ((s.data.drop s.pos).take rem)) := by
  intro rem
  induction rem using Nat.strong_induction_on with
  | _ rem ih =>
    intro s out hf hav hpos
    rw [ips_write_hunk, dif_neg (by omega)]
    have hamt : min BUF_SIZE rem ≤ rem := Nat.min_le_right _ _
    have hamt0 : 0 < min BUF_SIZE rem := by
      have : 0 < BUF_SIZE := by norm_num [BUF_SIZE]
      omega
    rw [InStream.read_avail s (min BUF_SIZE rem) hf (by omega)]
    have hblen : ((s.data.drop s.pos).take (min BUF_SIZE rem)).length
        = min BUF_SIZE rem := by
      simp
      omega
    dsimp only
    rw [if_neg (by omega)]
    by_cases hrem : rem - min BUF_SIZE rem = 0
    · have hreq : min BUF_SIZE rem = rem := by omega
      rw [hrem, ips_write_hunk]
      simp only [dif_pos]
      rw [hreq]
    · have hlt : rem - min BUF_SIZE rem < rem := by omega
      rw [ih _ hlt _ _ (by dsimp only) (by dsimp only; omega) (by omega)]
      dsimp only
      rw [OutFile.write_write]
      have h1 : s.pos + min BUF_SIZE rem + (rem - min BUF_SIZE rem)
          = s.pos + rem := by omega
      have h2 : (s.data.drop s.pos).take (min BUF_SIZE rem) ++
          (s.data.drop (s.pos + min BUF_SIZE rem)).take (rem - min BUF_SIZE rem) =
          (s.data.drop s.pos).take rem := by
        have hd3 : s.data.drop (s.pos + min BUF_SIZE rem) =
            (s.data.drop s.pos).drop (min BUF_SIZE rem) := by
          rw [List.drop_drop]
        have h4 : min BUF_SIZE rem + (rem - min BUF_SIZE rem) = rem := by omega
        rw [hd3, ← List.take_add, h4]
      rw [h1, h2]

/-- `ips_patch_hunk` on a raw hunk whose full payload is available:
seek to the offset and write the next `len` patch bytes. -/
theorem ips_patch_hunk_raw (off len : Nat) (s : InStream) (out : OutFile)
    (hf : s.failAt = Option.none) (hav : s.pos + len ≤ s.data.length)
    (hlen : 0 < len) :
    ips_patch_hunk off len s out =
      (true, ⟨s.data, s.pos + len, Option.none⟩,
        (out.seek off).write ((s.data.drop s.pos).take len)) := by
  unfold ips_patch_hunk
  rw [if_neg (by omega)]
  exact ips_write_hunk_avail len s (out.seek off) hf hav hlen

/-- `ips_patch_hunk` on an RLE hunk (zero length field) whose 3-byte
payload is available: seek to the offset and write the decoded run. -/
theorem ips_patch_hunk_rle (off r1 r0 v : Nat) (s : InStream) (out : OutFile)
    (rest : List Nat) (hf : s.failAt = Option.none)
    (hsh : s.data.drop s.pos = r1 :: r0 :: v :: rest) :
    ips_patch_hunk off 0 s out =
      (true, ⟨s.data, s.pos + 3, Option.none⟩,
        ips_write_rle_hunk (out.seek off) (be_16bit_int r1 r0) v) := by
  unfold ips_patch_hunk
  rw [if_pos rfl]
  have hav : s.pos + 3 ≤ s.data.length := by
    have := congrArg List.length hsh
    simp at this
    omega
  unfold ips_get_rle_payload
  rw [InStream.read_avail s 3 hf hav]
  rw [hsh]
  rfl

/-- When fewer than 5 bytes remain in a fault-free patch stream, the
preamble read comes back short at `feof` and `ips_next` returns
`HUNK_DONE` — whatever the remaining bytes are. -/
theorem ips_next_done_of_short (out : OutFile) (s : InStream)
    (h1 : s.failAt = Option.none) (h2 : s.data.length ≤ s.pos + 4) :
    ips_next out s = (.done, out, s.advance (s.peek 5).length) := by
  unfold ips_next ips_next_hunk_header InStream.read
  have hfail : s.readFails 5 = false := by
    unfold InStream.readFails
    rw [h1]
  rw [hfail]
  have hlen : (s.peek 5).length ≤ 4 := by
    simp only [InStream.peek, List.length_take, List.length_drop]
    omega
  rcases hp : s.peek 5 with _ | ⟨a, _ | ⟨b, _ | ⟨c, _ | ⟨d, _ | ⟨e, t⟩⟩⟩⟩⟩ <;>
    simp only [Bool.false_eq_true, if_false, hp] <;>
    first
      | rfl
      | (exfalso; rw [hp] at hlen; simp at hlen)

/-- One `HUNK_NEXT` iteration of the controller loop. -/
theorem ipsLoop_next (s : InStream) (out : OutFile) (hc : Nat)
    (out' : OutFile) (s' : InStream)
    (h : ips_next out s = (.next, out', s')) :
    ipsLoop s out hc = ipsLoop s' out' (hc + 1) := by
  rw [ipsLoop]
  split <;> rename_i o2 s2 heq <;> rw [h] at heq <;> simp at heq
  obtain ⟨h2, h3⟩ := heq
  subst h2
  subst h3
  rfl

/-- The `HUNK_DONE` exit of the controller loop: `end_patch` for IPS is
`PATCH_OK`. -/
theorem ipsLoop_done (s : InStream) (out : OutFile) (hc : Nat)
    (out' : OutFile) (s' : InStream)
    (h : ips_next out s = (.done, out', s')) :
    ipsLoop s out hc = (.ok, out', s', hc) := by
  rw [ipsLoop]
  split <;> rename_i o2 s2 heq <;> rw [h] at heq <;> simp at heq
  obtain ⟨h2, h3⟩ := heq
  subst h2
  subst h3
  rfl

/-- The `HUNK_ERR_` + `IO` exit of the controller loop: the error is
recorded as the I/O error kind and the loop stops at once. -/
theorem ipsLoop_ioError (s : InStream) (out : OutFile) (hc : Nat)
    (out' : OutFile) (s' : InStream)
    (h : ips_next out s = (.ioError, out', s')) :
    ipsLoop s out hc = (.errIo, out', s', hc) := by
  rw [ipsLoop]
  split <;> rename_i o2 s2 heq <;> rw [h] at heq <;> simp at heq
  obtain ⟨h2, h3⟩ := heq
  subst h2
  subst h3
  rfl

/-- The 5-byte source and 15-byte patch of the spec's first end-to-end
IPS scenario. -/
def c3_source : List Nat := [0x00, 0x00, 0x00, 0x00, 0x00]

/-- `PATCH`, one raw hunk `(offset 2, length 2, payload AB CD)`, `EOF`. -/
def c3_patch : List Nat :=
  [0x50, 0x41, 0x54, 0x43, 0x48,
   0x00, 0x00, 0x02, 0x00, 0x02, 0xAB, 0xCD,
   0x45, 0x4F, 0x46]

/-- C1: the claim says `ips_start` copies the entire source file to the
output byte-for-byte for every source length.  The code violates it: the
`copy_file` loop returns success on the first short read *before* writing
the final partial chunk, so only whole 32768-byte chunks are copied and a
5-byte source produces an *empty* output file. -/
theorem c1_ips_start_drops_tail :
    (ips_start [0x00, 0x00, 0x00, 0x00, 0x00]).data = [] ∧
    ([0x00, 0x00, 0x00, 0x00, 0x00] : List Nat) ≠ [] := by
  constructor
  · rw [ips_start]
    rw [copy_file_loop]
    rw [dif_pos (by decide)]
  · decide

/-- C2 counterexample: the next 5-byte hunk preamble begins with the
three ASCII bytes `EOF` (here `EOF 00 00`), yet `ips_next` does not
return `Done` — it decodes the preamble as an RLE hunk header and fails
with an I/O error when the 3-byte RLE payload is missing. -/
theorem c2_eof_tag_not_checked_cex :
    (ips_next ⟨[], 0⟩ ⟨[0x45, 0x4F, 0x46, 0x00, 0x00], 0, Option.none⟩).1 ≠
      HunkStatus.done := by decide

/-- C2 (amended): `ips_next` never inspects the preamble bytes for the
ASCII `EOF` tag.  It returns `Done` exactly when the 5-byte preamble read
comes back short at physical end-of-file (at most 4 bytes remain) — in
particular a patch ending with the 3-byte `EOF` tag terminates there.
Bytes past a non-final `EOF` tag are not ignored: a preamble beginning
with `EOF` followed by two more bytes is decoded as an ordinary hunk
(offset 0x454F46). -/
theorem c2_done_only_at_physical_eof (s : InStream) (out : OutFile)
    (h1 : s.failAt = Option.none) (h2 : s.data.length ≤ s.pos + 4) :
    (ips_next out s).1 = HunkStatus.done ∧
    (ips_next ⟨[], 0⟩
      ⟨[0x45, 0x4F, 0x46, 0x00, 0x01, 0x07], 0, Option.none⟩).1 =
      HunkStatus.next := by
  constructor
  · rw [ips_next_done_of_short out s h1 h2]
  · have hh : ips_next_hunk_header
        ⟨[0x45, 0x4F, 0x46, 0x00, 0x01, 0x07], 0, Option.none⟩ =
        (.next 0x454F46 1,
          ⟨[0x45, 0x4F, 0x46, 0x00, 0x01, 0x07], 5, Option.none⟩) := by decide
    have hpr := ips_patch_hunk_raw 0x454F46 1
      ⟨[0x45, 0x4F, 0x46, 0x00, 0x01, 0x07], 5, Option.none⟩ ⟨[], 0⟩
      rfl (by decide) (by decide)
    unfold ips_next
    rw [hh]
    dsimp only
    rw [hpr]

/-- Witness for C2 (amended): the stream holding exactly the 3 tag bytes
`EOF` terminates with `Done`. -/
theorem c2_done_only_at_physical_eof_witness :
    (ips_next ⟨[], 0⟩ ⟨[0x45, 0x4F, 0x46], 0, Option.none⟩).1 =
      HunkStatus.done ∧
    (ips_next ⟨[], 0⟩
      ⟨[0x45, 0x4F, 0x46, 0x00, 0x01, 0x07], 0, Option.none⟩).1 =
      HunkStatus.next :=
  c2_done_only_at_physical_eof ⟨[0x45, 0x4F, 0x46], 0, Option.none⟩ ⟨[], 0⟩
    rfl (by decide)

/-- C3: the claim says applying `PATCH 00 00 02 00 02 AB CD EOF` to the
5-byte source `00 00 00 00 00` yields `00 00 AB CD 00` and succeeds.  The
code violates it: because the initial copy drops the whole 5-byte source
(C1), the output file is `00 00 AB CD` — 4 bytes, the leading two being
filesystem-hole zeros — while the apply still reports `PATCH_OK`. -/
theorem c3_scenario_diverges :
    executePatchNonBps c3_source c3_patch =
      some ⟨⟨1, HunkStatus.done, PatchErr.ok, true⟩,
        [0x00, 0x00, 0xAB, 0xCD]⟩ ∧
    ([0x00, 0x00, 0xAB, 0xCD] : List Nat) ≠ [0x00, 0x00, 0xAB, 0xCD, 0x00] := by
  constructor
  · have hdet : detect_patch_type ⟨c3_patch, 0, Option.none⟩ =
        (PatchType.ips, ⟨c3_patch, 5, Option.none⟩) := by decide
    have hstart : ips_start c3_source = ⟨[], 0⟩ := by
      have hcopy : copy_file_loop c3_source = [] := by
        rw [copy_file_loop]
        rw [dif_pos (by decide)]
      rw [ips_start, hcopy]
      rfl
    have hpatch : ips_patch_hunk 2 2 ⟨c3_patch, 10, Option.none⟩ ⟨[], 0⟩ =
        (true, ⟨c3_patch, 12, Option.none⟩, ⟨[0x00, 0x00, 0xAB, 0xCD], 4⟩) := by
      rw [ips_patch_hunk_raw 2 2 _ _ rfl (by decide) (by decide)]
      decide
    have hn1 : ips_next ⟨[], 0⟩ ⟨c3_patch, 5, Option.none⟩ =
        (.next, ⟨[0x00, 0x00, 0xAB, 0xCD], 4⟩, ⟨c3_patch, 12, Option.none⟩) := by
      unfold ips_next
      have hh : ips_next_hunk_header ⟨c3_patch, 5, Option.none⟩ =
          (.next 2 2, ⟨c3_patch, 10, Option.none⟩) := by decide
      rw [hh]
      dsimp only
      rw [hpatch]
    have hn2 : ips_next ⟨[0x00, 0x00, 0xAB, 0xCD], 4⟩
        ⟨c3_patch, 12, Option.none⟩ =
        (.done, ⟨[0x00, 0x00, 0xAB, 0xCD], 4⟩, ⟨c3_patch, 15, Option.none⟩) := by
      decide
    have hloop : ipsLoop ⟨c3_patch, 5, Option.none⟩ ⟨[], 0⟩ 0 =
        (.ok, ⟨[0x00, 0x00, 0xAB, 0xCD], 4⟩, ⟨c3_patch, 15, Option.none⟩, 1) := by
      rw [ipsLoop_next _ _ _ _ _ hn1, ipsLoop_done _ _ _ _ _ hn2]
    unfold executePatchNonBps
    simp only [hdet, hstart, hloop]
    rfl
  · decide

/-- C5: an RLE hunk `(offset, length field 0, rle_length = len, value)`
and a raw hunk `(offset, length = len)` whose payload is `len` copies of
the value succeed and leave the output file in exactly the same state,
for every offset, every `len > 0` and every value. -/
theorem c5_rle_equiv (off len v r1 r0 : Nat) (out : OutFile)
    (restR restW : List Nat)
    (hlen : be_16bit_int r1 r0 = len) (hpos : 0 < len) :
    (ips_patch_hunk off 0 ⟨r1 :: r0 :: v :: restR, 0, Option.none⟩ out).1 =
      true ∧
    (ips_patch_hunk off len
      ⟨List.replicate len v ++ restW, 0, Option.none⟩ out).1 = true ∧
    (ips_patch_hunk off 0 ⟨r1 :: r0 :: v :: restR, 0, Option.none⟩ out).2.2 =
      (ips_patch_hunk off len
        ⟨List.replicate len v ++ restW, 0, Option.none⟩ out).2.2 := by
  have hrle := ips_patch_hunk_rle off r1 r0 v
    ⟨r1 :: r0 :: v :: restR, 0, Option.none⟩ out restR rfl (by simp)
  have hraw := ips_patch_hunk_raw off len
    ⟨List.replicate len v ++ restW, 0, Option.none⟩ out rfl
    (by simp) hpos
  rw [hrle, hraw]
  refine ⟨rfl, rfl, ?_⟩
  dsimp only
  rw [ips_write_rle_hunk_eq, hlen, if_neg (by omega)]
  congr 1
  rw [List.drop_zero, List.take_left' (by simp)]

/-- Witness for C5 at offset 1, run length 2 (`rle_length` bytes
`00 02`), value 7. -/
theorem c5_rle_equiv_witness :
    (ips_patch_hunk 1 0 ⟨0 :: 2 :: 7 :: [], 0, Option.none⟩ ⟨[], 0⟩).1 =
      true ∧
    (ips_patch_hunk 1 2
      ⟨List.replicate 2 7 ++ [], 0, Option.none⟩ ⟨[], 0⟩).1 = true ∧
    (ips_patch_hunk 1 0 ⟨0 :: 2 :: 7 :: [], 0, Option.none⟩ ⟨[], 0⟩).2.2 =
      (ips_patch_hunk 1 2
        ⟨List.replicate 2 7 ++ [], 0, Option.none⟩ ⟨[], 0⟩).2.2 :=
  c5_rle_equiv 1 2 7 0 2 ⟨[], 0⟩ [] [] (by decide) (by decide)

/-- Fault-free marker verification compares the next `marker.length`
bytes with the marker and leaves data and fault point unchanged. -/
theorem patch_verify_marker_fst (patch : List Nat) (p : Nat) (marker : List Nat) :
    (patch_verify_marker ⟨patch, p, Option.none⟩ marker).1 =
      decide ((patch.drop p).take marker.length = marker) ∧
    (patch_verify_marker ⟨patch, p, Option.none⟩ marker).2.data = patch ∧
    (patch_verify_marker ⟨patch, p, Option.none⟩ marker).2.failAt =
      Option.none := by
  unfold patch_verify_marker InStream.read InStream.readFails
  exact ⟨rfl, rfl, rfl⟩

/-- A patch starting with neither marker resolves to the unknown type. -/
theorem detect_patch_type_unknown (patch : List Nat)
    (h5 : patch.take 5 ≠ IPS_EXPECTED_MARKER)
    (h4 : patch.take 4 ≠ BPS_EXPECTED_MARKER) :
    (detect_patch_type ⟨patch, 0, Option.none⟩).1 = PatchType.unknown := by
  unfold detect_patch_type
  rcases hv1 : ips_verify_marker ⟨patch, 0, Option.none⟩ with ⟨ok1, s1⟩
  have h1 := patch_verify_marker_fst patch 0 IPS_EXPECTED_MARKER
  unfold ips_verify_marker at hv1
  rw [hv1] at h1
  dsimp only at h1
  have hok1 : ok1 = false := by
    rw [h1.1]
    exact decide_eq_false (by rw [List.drop_zero]; exact h5)
  subst hok1
  dsimp only
  have hseek : s1.seek 0 = ⟨patch, 0, Option.none⟩ := by
    unfold InStream.seek
    rw [h1.2.1, h1.2.2]
  rw [hseek]
  rcases hv2 : bps_verify_marker ⟨patch, 0, Option.none⟩ with ⟨ok2, s2⟩
  have h2 := patch_verify_marker_fst patch 0 BPS_EXPECTED_MARKER
  unfold bps_verify_marker at hv2
  rw [hv2] at h2
  dsimp only at h2
  have hok2 : ok2 = false := by
    rw [h2.1]
    exact decide_eq_false (by rw [List.drop_zero]; exact h4)
  subst hok2
  rfl

/-- C4: for every patch whose first 5 bytes are not ASCII `PATCH` and
whose first 4 bytes are not ASCII `BPS1`, the apply terminates at once
with `PATCH_UNKNOWN_TYPE` (detection tries the IPS marker, rewinds to 0,
tries the BPS marker, and gives up), publishing a final done status and
leaving the freshly truncated output file empty. -/
theorem c4_unknown_type (src patch : List Nat)
    (h5 : patch.take 5 ≠ IPS_EXPECTED_MARKER)
    (h4 : patch.take 4 ≠ BPS_EXPECTED_MARKER) :
    executePatchNonBps src patch =
      some ⟨⟨0, HunkStatus.done, PatchErr.unknownType, true⟩, []⟩ := by
  have hu := detect_patch_type_unknown patch h5 h4
  rcases hd : detect_patch_type ⟨patch, 0, Option.none⟩ with ⟨ty, s2⟩
  rw [hd] at hu
  dsimp only at hu
  subst hu
  unfold executePatchNonBps
  dsimp only
  rw [hd]

/-- Witness for C4: a 3-byte garbage patch. -/
theorem c4_unknown_type_witness :
    executePatchNonBps [1, 2, 3] [9, 9, 9] =
      some ⟨⟨0, HunkStatus.done, PatchErr.unknownType, true⟩, []⟩ :=
  c4_unknown_type [1, 2, 3] [9, 9, 9] (by decide) (by decide)

/-- C7: an OS-level read failure during hunk iteration is terminal.
First conjunct: a faulted preamble read makes `ips_next` return the
I/O-error status at once, with the output file untouched.  Second
conjunct: whenever `ips_next` reports an I/O error, the controller loop
stops immediately — it records `PATCH_ERR_` + `IO`, performs no retry
(the hunk count is unchanged) and no rollback (the output file is exactly
as the failing iteration left it). -/
theorem c7_io_error_terminal (s : InStream) (out : OutFile) (f : Nat)
    (s1 : InStream) (out1 : OutFile) (hc : Nat)
    (h1 : s.failAt = some f) (h2 : f < s.pos + 5)
    (h3 : (ips_next out1 s1).1 = HunkStatus.ioError) :
    ips_next out s = (.ioError, out, s) ∧
    ipsLoop s1 out1 hc =
      (.errIo, (ips_next out1 s1).2.1, (ips_next out1 s1).2.2, hc) := by
  constructor
  · unfold ips_next ips_next_hunk_header InStream.read
    have hfail : s.readFails 5 = true := by
      unfold InStream.readFails
      rw [h1]
      exact decide_eq_true h2
    rw [hfail]
    rfl
  · rcases hn : ips_next out1 s1 with ⟨st, o, s'⟩
    rw [hn] at h3
    dsimp only at h3
    subst h3
    dsimp only
    exact ipsLoop_ioError s1 out1 hc o s' hn

/-- Witness for C7: a patch stream whose very first read faults. -/
theorem c7_io_error_terminal_witness :
    ips_next ⟨[], 0⟩ ⟨[], 0, some 0⟩ = (.ioError, ⟨[], 0⟩, ⟨[], 0, some 0⟩) ∧
    ipsLoop ⟨[], 0, some 0⟩ ⟨[], 0⟩ 0 =
      (.errIo, (ips_next ⟨[], 0⟩ ⟨[], 0, some 0⟩).2.1,
        (ips_next ⟨[], 0⟩ ⟨[], 0, some 0⟩).2.2, 0) :=
  c7_io_error_terminal ⟨[], 0, some 0⟩ ⟨[], 0⟩ 0 ⟨[], 0, some 0⟩ ⟨[], 0⟩ 0
    rfl (by decide) (by decide)

/-- An IPS patch body that ends at a hunk boundary: zero or more complete
hunks (raw or RLE) followed by a tail of fewer than 5 bytes and no `EOF`
tag. -/
inductive IpsBody : List Nat → Prop where
  | tail (t : List Nat) (h : t.length < 5) : IpsBody t
  | raw (o2 o1 o0 l1 l0 : Nat) (payload rest : List Nat)
      (hne : be_16bit_int l1 l0 ≠ 0)
      (hlen : payload.length = be_16bit_int l1 l0)
      (hrest : IpsBody rest) :
      IpsBody (o2 :: o1 :: o0 :: l1 :: l0 :: (payload ++ rest))
  | rle (o2 o1 o0 l1 l0 r1 r0 v : Nat) (rest : List Nat)
      (hz : be_16bit_int l1 l0 = 0)
      (hrest : IpsBody rest) :
      IpsBody (o2 :: o1 :: o0 :: l1 :: l0 :: r1 :: r0 :: v :: rest)

/-- Reading the 5-byte preamble of a complete hunk placed after `pre`. -/
theorem ips_next_hunk_header_at (pre : List Nat) (o2 o1 o0 l1 l0 : Nat)
    (tl : List Nat) :
    ips_next_hunk_header
        ⟨pre ++ (o2 :: o1 :: o0 :: l1 :: l0 :: tl), pre.length, Option.none⟩ =
      (.next (be_24bit_int o2 o1 o0) (be_16bit_int l1 l0),
        ⟨pre ++ (o2 :: o1 :: o0 :: l1 :: l0 :: tl), pre.length + 5,
          Option.none⟩) := by
  unfold ips_next_hunk_header
  rw [InStream.read_avail _ 5 rfl (by simp)]
  have hdrop : (pre ++ (o2 :: o1 :: o0 :: l1 :: l0 :: tl)).drop pre.length =
      o2 :: o1 :: o0 :: l1 :: l0 :: tl := List.drop_left pre _
  rw [hdrop]
  rfl

/-- The hunk loop accepts every patch body that ends at a hunk boundary
and reports `PATCH_OK`. -/
theorem ipsLoop_ok_of_body (body : List Nat) (hb : IpsBody body) :
    ∀ (pre : List Nat) (out : OutFile) (hc : Nat),
    (ipsLoop ⟨pre ++ body, pre.length, Option.none⟩ out hc).1 = PatchErr.ok := by
  induction hb with
  | tail t h =>
    intro pre out hc
    have hdone := ips_next_done_of_short out
      ⟨pre ++ t, pre.length, Option.none⟩ rfl (by simp; omega)
    rw [ipsLoop_done _ _ _ _ _ hdone]
  | raw o2 o1 o0 l1 l0 payload rest hne hlen hrest ih =>
    intro pre out hc
    have hh := ips_next_hunk_header_at pre o2 o1 o0 l1 l0 (payload ++ rest)
    have hpos : 0 < be_16bit_int l1 l0 := Nat.pos_of_ne_zero hne
    have hav : pre.length + 5 + be_16bit_int l1 l0 ≤
        (pre ++ (o2 :: o1 :: o0 :: l1 :: l0 :: (payload ++ rest))).length := by
      simp
      omega
    have hraw := ips_patch_hunk_raw (be_24bit_int o2 o1 o0) (be_16bit_int l1 l0)
      ⟨pre ++ (o2 :: o1 :: o0 :: l1 :: l0 :: (payload ++ rest)),
        pre.length + 5, Option.none⟩ out rfl hav hpos
    have hn : ips_next out
        ⟨pre ++ (o2 :: o1 :: o0 :: l1 :: l0 :: (payload ++ rest)),
          pre.length, Option.none⟩ =
        (.next,
          (out.seek (be_24bit_int o2 o1 o0)).write
            (((pre ++ (o2 :: o1 :: o0 :: l1 :: l0 :: (payload ++ rest))).drop
              (pre.length + 5)).take (be_16bit_int l1 l0)),
          ⟨pre ++ (o2 :: o1 :: o0 :: l1 :: l0 :: (payload ++ rest)),
            pre.length + 5 + be_16bit_int l1 l0, Option.none⟩) := by
      unfold ips_next
      rw [hh]
      dsimp only
      rw [hraw]
    rw [ipsLoop_next _ _ _ _ _ hn]
    have hd : pre ++ (o2 :: o1 :: o0 :: l1 :: l0 :: (payload ++ rest)) =
        (pre ++ [o2, o1, o0, l1, l0] ++ payload) ++ rest := by
      simp
    have hp : pre.length + 5 + be_16bit_int l1 l0 =
        (pre ++ [o2, o1, o0, l1, l0] ++ payload).length := by
      simp only [List.length_append, List.length_cons, List.length_nil]
      omega
    have hstate :
        (⟨pre ++ (o2 :: o1 :: o0 :: l1 :: l0 :: (payload ++ rest)),
          pre.length + 5 + be_16bit_int l1 l0, Option.none⟩ : InStream) =
        ⟨(pre ++ [o2, o1, o0, l1, l0] ++ payload) ++ rest,
          (pre ++ [o2, o1, o0, l1, l0] ++ payload).length, Option.none⟩ := by
      rw [hd, hp]
    rw [hstate]
    exact ih (pre ++ [o2, o1, o0, l1, l0] ++ payload) _ (hc + 1)
  | rle o2 o1 o0 l1 l0 r1 r0 v rest hz ihrest ih =>
    intro pre out hc
    have hh := ips_next_hunk_header_at pre o2 o1 o0 l1 l0 (r1 :: r0 :: v :: rest)
    have hsh : ((pre ++ (o2 :: o1 :: o0 :: l1 :: l0 :: r1 :: r0 :: v :: rest)).drop
        (pre.length + 5)) = r1 :: r0 :: v :: rest := by
      have := @List.drop_append Nat pre
        (o2 :: o1 :: o0 :: l1 :: l0 :: r1 :: r0 :: v :: rest) 5
      simpa using this
    have hrle := ips_patch_hunk_rle (be_24bit_int o2 o1 o0) r1 r0 v
      ⟨pre ++ (o2 :: o1 :: o0 :: l1 :: l0 :: r1 :: r0 :: v :: rest),
        pre.length + 5, Option.none⟩ out rest rfl hsh
    have hn : ips_next out
        ⟨pre ++ (o2 :: o1 :: o0 :: l1 :: l0 :: r1 :: r0 :: v :: rest),
          pre.length, Option.none⟩ =
        (.next,
          ips_write_rle_hunk (out.seek (be_24bit_int o2 o1 o0))
            (be_16bit_int r1 r0) v,
          ⟨pre ++ (o2 :: o1 :: o0 :: l1 :: l0 :: r1 :: r0 :: v :: rest),
            pre.length + 5 + 3, Option.none⟩) := by
      unfold ips_next
      rw [hh]
      dsimp only
      rw [hz]
      rw [hrle]
    rw [ipsLoop_next _ _ _ _ _ hn]
    have hd : pre ++ (o2 :: o1 :: o0 :: l1 :: l0 :: r1 :: r0 :: v :: rest) =
        (pre ++ [o2, o1, o0, l1, l0, r1, r0, v]) ++ rest := by
      simp
    have hp : pre.length + 5 + 3 =
        (pre ++ [o2, o1, o0, l1, l0, r1, r0, v]).length := by
      simp only [List.length_append, List.length_cons, List.length_nil]
    have hstate :
        (⟨pre ++ (o2 :: o1 :: o0 :: l1 :: l0 :: r1 :: r0 :: v :: rest),
          pre.length + 5 + 3, Option.none⟩ : InStream) =
        ⟨(pre ++ [o2, o1, o0, l1, l0, r1, r0, v]) ++ rest,
          (pre ++ [o2, o1, o0, l1, l0, r1, r0, v]).length, Option.none⟩ := by
      rw [hd, hp]
    rw [hstate]
    exact ih (pre ++ [o2, o1, o0, l1, l0, r1, r0, v]) _ (hc + 1)

/-- A patch beginning with the `PATCH` marker resolves to IPS with the
stream positioned just past the marker. -/
theorem detect_patch_type_ips (body : List Nat) :
    detect_patch_type ⟨IPS_EXPECTED_MARKER ++ body, 0, Option.none⟩ =
      (.ips, ⟨IPS_EXPECTED_MARKER ++ body, 5, Option.none⟩) := by
  unfold detect_patch_type ips_verify_marker patch_verify_marker
  rw [InStream.read_avail _ _ rfl (by simp [IPS_EXPECTED_MARKER])]
  rw [List.drop_zero, List.take_left]
  dsimp only
  rw [show decide (IPS_EXPECTED_MARKER = IPS_EXPECTED_MARKER) = true from by decide]
  rfl

/-- C9: an IPS patch that reaches physical end-of-file at a hunk
boundary without an `EOF` tag — its body is complete hunks followed by
fewer than 5 leftover preamble bytes — is accepted: the apply reports
`PATCH_OK` with a final done status.  The mechanism is the second
conjunct: with fewer than 5 bytes left, `ips_next` returns `Done`, not an
error. -/
theorem c9_truncated_ok (src body : List Nat) (hb : IpsBody body) :
    Option.map (fun r => (r.status.err, r.status.is_done))
        (executePatchNonBps src (IPS_EXPECTED_MARKER ++ body)) =
      some (PatchErr.ok, true) ∧
    ∀ (s : InStream) (out : OutFile), s.failAt = Option.none →
      s.data.length ≤ s.pos + 4 → (ips_next out s).1 = HunkStatus.done := by
  constructor
  · have hl := ipsLoop_ok_of_body body hb IPS_EXPECTED_MARKER (ips_start src) 0
    have h5len : (IPS_EXPECTED_MARKER : List Nat).length = 5 := rfl
    rw [h5len] at hl
    unfold executePatchNonBps
    dsimp only
    rw [detect_patch_type_ips body]
    dsimp only
    rw [hl]
    rfl
  · intro s out h1 h2
    rw [ips_next_done_of_short out s h1 h2]

/-- Witness for C9: one complete raw hunk followed by a 2-byte leftover
tail (no `EOF` tag) applies with `PATCH_OK`. -/
theorem c9_truncated_ok_witness :
    Option.map (fun r => (r.status.err, r.status.is_done))
        (executePatchNonBps []
          (IPS_EXPECTED_MARKER ++
            (0 :: 0 :: 0 :: 0 :: 1 :: ([0xEE] ++ [1, 2])))) =
      some (PatchErr.ok, true) ∧
    ∀ (s : InStream) (out : OutFile), s.failAt = Option.none →
      s.data.length ≤ s.pos + 4 → (ips_next out s).1 = HunkStatus.done :=
  c9_truncated_ok [] _
    (IpsBody.raw 0 0 0 0 1 [0xEE] [1, 2] (by decide) (by decide)
      (IpsBody.tail [1, 2] (by decide)))

/-- The body of one parsed IPS hunk: a raw payload or an RLE run. -/
inductive IpsHunkBody where
  | raw (payload : List Nat)
  | rle (count value : Nat)
deriving DecidableEq, Repr

/-- One parsed IPS hunk: absolute target offset plus body. -/
structure IpsHunk where
  offset : Nat
  body : IpsHunkBody
deriving DecidableEq, Repr

/-- The bytes a hunk deposits in the target file. -/
def hunkBytes : IpsHunkBody → List Nat
  | .raw p => p
  | .rle n v => List.replicate n v

/-- The value of the 2-byte length field in the hunk preamble: the
payload length for a raw hunk, 0 for an RLE hunk. -/
def hunkHeaderLength : IpsHunkBody → Nat
  | .raw p => p.length
  | .rle _ _ => 0

/-- The patch-stream bytes that follow the preamble: the payload for a
raw hunk, the 3-byte `rle_length`/`rle_value` record for an RLE hunk. -/
def hunkStream : IpsHunkBody → List Nat
  | .raw p => p
  | .rle n v => [n / 256, n % 256, v]

/-- A hunk representable in the IPS wire format: a non-empty body whose
length fits the 2-byte field. -/
def IpsHunk.wf : IpsHunk → Bool
  | ⟨_, .raw p⟩ => decide (0 < p.length ∧ p.length < 65536)
  | ⟨_, .rle n _⟩ => decide (0 < n ∧ n < 65536)

/-- Apply one parsed hunk through `ips_patch_hunk`, feeding it the hunk's
encoded patch-stream bytes. -/
def applyHunk (out : OutFile) (h : IpsHunk) : OutFile :=
  (ips_patch_hunk h.offset (hunkHeaderLength h.body)
    ⟨hunkStream h.body, 0, Option.none⟩ out).2.2

/-- Apply a sequence of hunks in patch order. -/
def applyHunks (out : OutFile) (hs : List IpsHunk) : OutFile :=
  hs.foldl applyHunk out

/-- The byte hunk `h` deposits at absolute target position `p`, if `p`
lies in its range. -/
def coveringByte (h : IpsHunk) (p : Nat) : Option Nat :=
  if h.offset ≤ p then (hunkBytes h.body)[p - h.offset]? else Option.none

/-- The byte deposited at position `p` by the *last* hunk in the list
that covers `p`, if any. -/
def lastWrite (hs : List IpsHunk) (p : Nat) : Option Nat :=
  hs.foldl (fun acc h =>
    match coveringByte h p with
    | some b => some b
    | Option.none => acc) Option.none

/-- `ips_patch_hunk` on a well-formed parsed hunk is: seek to the hunk's
offset and write its bytes there. -/
theorem applyHunk_eq (out : OutFile) (h : IpsHunk) (hwf : h.wf = true) :
    applyHunk out h = (out.seek h.offset).write (hunkBytes h.body) := by
  rcases h with ⟨off, body⟩
  cases body with
  | raw p =>
    simp only [IpsHunk.wf, decide_eq_true_eq] at hwf
    unfold applyHunk hunkHeaderLength hunkStream hunkBytes
    dsimp only
    rw [ips_patch_hunk_raw off p.length ⟨p, 0, Option.none⟩ out rfl
      (by simp) hwf.1]
    dsimp only
    rw [List.drop_zero, List.take_length]
  | rle n v =>
    simp only [IpsHunk.wf, decide_eq_true_eq] at hwf
    unfold applyHunk hunkHeaderLength hunkStream hunkBytes
    dsimp only
    rw [ips_patch_hunk_rle off (n / 256) (n % 256) v
      ⟨[n / 256, n % 256, v], 0, Option.none⟩ out [] rfl (by rfl)]
    dsimp only
    rw [ips_write_rle_hunk_eq]
    have hbe : be_16bit_int (n / 256) (n % 256) = n := by
      unfold be_16bit_int
      omega
    rw [hbe, if_neg (by omega)]

/-- Splitting `lastWrite` at the last hunk. -/
theorem lastWrite_append (hs : List IpsHunk) (h : IpsHunk) (p : Nat) :
    lastWrite (hs ++ [h]) p =
      match coveringByte h p with
      | some b => some b
      | Option.none => lastWrite hs p := by
  unfold lastWrite
  rw [List.foldl_append]
  rfl

/-- Applying the hunks in patch order puts, at every position some hunk
covers, the byte of the last hunk covering it. -/
theorem applyHunks_lastWrite (hs : List IpsHunk) :
    ∀ (out : OutFile) (p b : Nat),
    (∀ h ∈ hs, h.wf = true) → lastWrite hs p = some b →
    ((applyHunks out hs).data)[p]? = some b := by
  induction hs using List.reverseRecOn with
  | nil =>
    intro out p b _ hlast
    exfalso
    unfold lastWrite at hlast
    simp at hlast
  | append_singleton hs h ih =>
    intro out p b hwf hlast
    have hwf' : ∀ h' ∈ hs, h'.wf = true := by
      intro h' hm
      exact hwf h' (by simp [hm])
    have hwfh : h.wf = true := hwf h (by simp)
    have happ : applyHunks out (hs ++ [h]) = applyHunk (applyHunks out hs) h := by
      unfold applyHunks
      rw [List.foldl_append]
      rfl
    rw [lastWrite_append] at hlast
    rw [happ, applyHunk_eq _ h hwfh]
    dsimp only [OutFile.seek, OutFile.write]
    cases hcov : coveringByte h p with
    | some b0 =>
      rw [hcov] at hlast
      dsimp only at hlast
      have hb0 : b0 = b := by
        injection hlast
      subst hb0
      unfold coveringByte at hcov
      by_cases hoff : h.offset ≤ p
      · rw [if_pos hoff] at hcov
        have hidx : p - h.offset < (hunkBytes h.body).length :=
          (List.getElem?_eq_some.1 hcov).1
        rw [overwriteAt_getElem_inside _ _ _ p hoff (by omega)]
        exact hcov
      · rw [if_neg hoff] at hcov
        exact absurd hcov (by simp)
    | none =>
      rw [hcov] at hlast
      dsimp only at hlast
      have hprev := ih out p b hwf' hlast
      unfold coveringByte at hcov
      by_cases hoff : h.offset ≤ p
      · rw [if_pos hoff] at hcov
        have hlen : (hunkBytes h.body).length ≤ p - h.offset := by
          by_contra hc
          push_neg at hc
          rw [List.getElem?_eq_getElem hc] at hcov
          simp at hcov
        rw [overwriteAt_getElem_after _ _ _ p (by omega)]
        exact hprev
      · push_neg at hoff
        exact overwriteAt_getElem_before _ _ _ p b hoff hprev

/-- C6: hunks need not be ordered or disjoint — each hunk's bytes land at
its absolute offset in patch order, so at every position the byte of the
last covering hunk survives in the final output. -/
theorem c6_last_write_wins (hs : List IpsHunk) (out : OutFile) (p b : Nat)
    (hwf : ∀ h ∈ hs, h.wf = true) (hlast : lastWrite hs p = some b) :
    ((applyHunks out hs).data)[p]? = some b :=
  applyHunks_lastWrite hs out p b hwf hlast

/-- Witness for C6: two length-2 hunks at offsets 2 and 3; the byte at
offset 3 comes from the second hunk. -/
theorem c6_last_write_wins_witness :
    ((applyHunks ⟨[], 0⟩
      [⟨2, .raw [0xAA, 0xBB]⟩, ⟨3, .raw [0xCC, 0xDD]⟩]).data)[3]? =
      some 0xCC :=
  c6_last_write_wins [⟨2, .raw [0xAA, 0xBB]⟩, ⟨3, .raw [0xCC, 0xDD]⟩]
    ⟨[], 0⟩ 3 0xCC (by decide) (by decide)

/-- The `while` loop of `execute_patch` (`src/unnamed/part_000:236-259`),
generic in the decoder: `step` is `next_hunk` for the resolved patch type
acting on the decoder's file state, and `endE` is what `end_patch`
returns at `HUNK_DONE` (`PATCH_OK` for IPS).  On `HUNK_NEXT` the local
status takes the new iteration status, the hunk counter grows by exactly
1 precisely when the decoder returned `HUNK_NEXT` again, and the status
is published (`rombp_update_patch_status`, modelled from the spec as a
whole-record overwrite since `patch_status_copy` is in a source file not
under `src/`).  On `HUNK_DONE`/`HUNK_ERR...` the error is recorded and
the loop exits; on `HUNK_NONE` it spins without publishing.  `fuel`
bounds the number of modelled iterations; the returned flag says whether
the loop exited within the fuel.  Returns the list of published statuses,
the final local status, and that flag. -/
def ctrl_loop {σ : Type} (step : σ → HunkStatus × σ) (endE : PatchErr) :
    Nat → σ → rombp_patch_status →
    List rombp_patch_status × rombp_patch_status × Bool
  | 0, _, ls => ([], ls, false)
  | fuel + 1, s, ls =>
    match ls.iter_status with
    | .next =>
      let p := step s
      let ls' : rombp_patch_status :=
        { ls with
          iter_status := p.1,
          hunk_count := ls.hunk_count + (if p.1 = .next then 1 else 0) }
      let r := ctrl_loop step endE fuel p.2 ls'
      (ls' :: r.1, r.2)
    | .done => ([], { ls with err := endE }, true)
    | .ioError => ([], { ls with err := .errIo }, true)
    | .hunkNone => ctrl_loop step endE fuel s ls

/-- The full publish trace of one run of the patch worker
(`execute_patch`, `src/unnamed/part_000:205-268`): if a pre-loop step
fails (`early = some e`: open failure, unknown type, failed start) the
worker publishes exactly one record — done, error `e`, `is_done = true`.
Otherwise it runs the hunk loop and, when the loop exits, publishes the
final record with `is_done = true` (the `done:` label). -/
def worker_trace {σ : Type} (step : σ → HunkStatus × σ) (endE : PatchErr)
    (early : Option PatchErr) (fuel : Nat) (s0 : σ) :
    List rombp_patch_status :=
  match early with
  | some e =>
    [{ patch_status_init with iter_status := .done, err := e, is_done := true }]
  | Option.none =>
    let r := ctrl_loop step endE fuel s0
      { patch_status_init with iter_status := .next }
    r.1 ++ (if r.2.2 = true then [{ r.2.1 with is_done := true }] else [])

/-- The per-publication hunk-count relation: each published record's
count is its predecessor's plus 1 exactly when it reports `HUNK_NEXT`. -/
def HcStep (a b : rombp_patch_status) : Prop :=
  b.hunk_count = a.hunk_count +
    (if b.iter_status = HunkStatus.next then 1 else 0)

/-- Every publication of the loop keeps `is_done` as it was locally
(false), and so does the loop's final local status. -/
theorem ctrl_loop_is_done {σ : Type} (step : σ → HunkStatus × σ)
    (endE : PatchErr) :
    ∀ (fuel : Nat) (s : σ) (ls : rombp_patch_status),
    (∀ x ∈ (ctrl_loop step endE fuel s ls).1, x.is_done = ls.is_done) ∧
    (ctrl_loop step endE fuel s ls).2.1.is_done = ls.is_done := by
  intro fuel
  induction fuel with
  | zero =>
    intro s ls
    simp [ctrl_loop]
  | succ fuel ih =>
    intro s ls
    cases hit : ls.iter_status with
    | next =>
      simp only [ctrl_loop, hit]
      have h := ih (step s).2
        { ls with
          iter_status := (step s).1,
          hunk_count := ls.hunk_count +
            (if (step s).1 = .next then 1 else 0) }
      refine ⟨?_, h.2⟩
      intro x hx
      rcases List.mem_cons.1 hx with hx1 | hx2
      · rw [hx1]
      · exact h.1 x hx2
    | done => simp [ctrl_loop, hit]
    | ioError => simp [ctrl_loop, hit]
    | hunkNone =>
      simp only [ctrl_loop, hit]
      exact ih s ls

/-- The chain of published hunk counts, led by the local status entering
the loop and closed by the final `is_done` publication. -/
theorem ctrl_loop_chain {σ : Type} (step : σ → HunkStatus × σ)
    (endE : PatchErr) :
    ∀ (fuel : Nat) (s : σ) (ls : rombp_patch_status),
    List.Chain' HcStep (ls :: ((ctrl_loop step endE fuel s ls).1 ++
      (if (ctrl_loop step endE fuel s ls).2.2 = true then
        [{ (ctrl_loop step endE fuel s ls).2.1 with is_done := true }]
      else []))) := by
  intro fuel
  induction fuel with
  | zero =>
    intro s ls
    simp [ctrl_loop]
  | succ fuel ih =>
    intro s ls
    cases hit : ls.iter_status with
    | next =>
      simp only [ctrl_loop, hit, List.cons_append]
      refine List.Chain'.cons ?_ ?_
      · show HcStep ls _
        unfold HcStep
        rfl
      · exact ih (step s).2 _
    | done =>
      simp only [ctrl_loop, hit, List.nil_append, if_pos]
      refine List.Chain'.cons ?_ (List.chain'_singleton _)
      unfold HcStep
      simp [hit]
    | ioError =>
      simp only [ctrl_loop, hit, List.nil_append, if_pos]
      refine List.Chain'.cons ?_ (List.chain'_singleton _)
      unfold HcStep
      simp [hit]
    | hunkNone =>
      simp only [ctrl_loop, hit]
      exact ih s ls

/-- In a publish trace made of loop publications (all with
`is_done = false`) followed by at most one closing publication, a
publication with `is_done = true` can only be the last element. -/
theorem is_done_publish_last (A B : List rombp_patch_status)
    (hA : ∀ x ∈ A, x.is_done = false) (hB : B.length ≤ 1)
    (i : Nat) (hi : i < (A ++ B).length)
    (hd : ((A ++ B).get ⟨i, hi⟩).is_done = true) :
    i + 1 = (A ++ B).length := by
  by_cases hlt : i < A.length
  · exfalso
    have h1 : (A ++ B)[i]? = some ((A ++ B).get ⟨i, hi⟩) :=
      List.getElem?_eq_getElem hi
    rw [List.getElem?_append] at h1
    rw [if_pos hlt] at h1
    obtain ⟨hlt2, hval⟩ := List.getElem?_eq_some.1 h1
    have hmem := List.getElem_mem hlt2
    have hfalse := hA _ hmem
    rw [hval, hd] at hfalse
    simp at hfalse
  · push_neg at hlt
    rw [List.length_append] at hi ⊢
    omega

/-- C8: once the worker publishes a record with `is_done = true`, it is
the last publication of the run — the worker performs no further
mutation of the shared progress record, so every later observation
returns that same final record. -/
theorem c8_is_done_final {σ : Type} (step : σ → HunkStatus × σ)
    (endE : PatchErr) (early : Option PatchErr) (fuel : Nat) (s0 : σ)
    (i : Nat) (hi : i < (worker_trace step endE early fuel s0).length)
    (hd : ((worker_trace step endE early fuel s0).get ⟨i, hi⟩).is_done =
      true) :
    i + 1 = (worker_trace step endE early fuel s0).length := by
  match early with
  | some e =>
    exact is_done_publish_last []
      [{ patch_status_init with
         iter_status := .done, err := e, is_done := true }]
      (by simp) (by simp) i hi hd
  | Option.none =>
    have hinv := ctrl_loop_is_done step endE fuel s0
      { patch_status_init with iter_status := .next }
    exact is_done_publish_last
      (ctrl_loop step endE fuel s0
        { patch_status_init with iter_status := .next }).1
      (if (ctrl_loop step endE fuel s0
          { patch_status_init with iter_status := .next }).2.2 = true then
        [{ (ctrl_loop step endE fuel s0
            { patch_status_init with iter_status := .next }).2.1 with
           is_done := true }]
      else [])
      (fun x hx => hinv.1 x hx)
      (by
        rcases hfin : (ctrl_loop step endE fuel s0
          { patch_status_init with iter_status := .next }).2.2 with _ | _ <;>
          simp [hfin])
      i hi hd

/-- Witness for C8: a two-iteration run whose second publication is the
final `is_done` record. -/
theorem c8_is_done_final_witness :
    1 + 1 = (worker_trace (fun (u : Unit) => (HunkStatus.done, u))
      PatchErr.ok Option.none 2 ()).length :=
  c8_is_done_final (fun (u : Unit) => (HunkStatus.done, u)) PatchErr.ok
    Option.none 2 () 1 (by decide) (by decide)

/-- C10: the published hunk count never decreases over a run, because
each publication's count is its predecessor's plus exactly 1 when the
iteration returned `HUNK_NEXT` and plus 0 otherwise (second conjunct). -/
theorem c10_hunk_count_monotone {σ : Type} (step : σ → HunkStatus × σ)
    (endE : PatchErr) (early : Option PatchErr) (fuel : Nat) (s0 : σ)
    (i j : Nat) (hij : i ≤ j)
    (hj : j < (worker_trace step endE early fuel s0).length) :
    ((worker_trace step endE early fuel s0).get
        ⟨i, lt_of_le_of_lt hij hj⟩).hunk_count ≤
      ((worker_trace step endE early fuel s0).get ⟨j, hj⟩).hunk_count ∧
    ∀ (k : Nat) (hk : k + 1 < (worker_trace step endE early fuel s0).length),
      ((worker_trace step endE early fuel s0).get ⟨k + 1, hk⟩).hunk_count =
        ((worker_trace step endE early fuel s0).get
            ⟨k, Nat.lt_of_succ_lt hk⟩).hunk_count +
          (if ((worker_trace step endE early fuel s0).get
              ⟨k + 1, hk⟩).iter_status = HunkStatus.next then 1 else 0) := by
  have hchain : List.Chain' HcStep (worker_trace step endE early fuel s0) := by
    match early with
    | some e => exact List.chain'_singleton _
    | Option.none =>
      have h := ctrl_loop_chain step endE fuel s0
        { patch_status_init with iter_status := .next }
      exact h.tail
  constructor
  · rcases Nat.lt_or_ge i j with hlt | hge
    · have hle : List.Chain'
          (fun a b : rombp_patch_status => a.hunk_count ≤ b.hunk_count)
          (worker_trace step endE early fuel s0) :=
        List.Chain'.imp
          (fun a b hab => by rw [hab]; exact Nat.le_add_right _ _) hchain
      have htrans : IsTrans rombp_patch_status
          (fun a b => a.hunk_count ≤ b.hunk_count) :=
        ⟨fun a b c hab hbc => Nat.le_trans hab hbc⟩
      have hpw := (@List.chain'_iff_pairwise rombp_patch_status
        (fun a b => a.hunk_count ≤ b.hunk_count) htrans
        (worker_trace step endE early fuel s0)).1 hle
      have := List.pairwise_iff_getElem.1 hpw i j
        (lt_of_le_of_lt hij hj) hj hlt
      rw [List.get_eq_getElem, List.get_eq_getElem]
      exact this
    · have hij' : i = j := by omega
      subst hij'
      exact Nat.le_refl _
  · intro k hk
    have := List.chain'_iff_get.1 hchain k (by omega)
    exact this

/-- Witness for C10: a run of two `HUNK_NEXT` iterations; counts grow
1, 2. -/
theorem c10_hunk_count_monotone_witness :
    ((worker_trace (fun (u : Unit) => (HunkStatus.next, u)) PatchErr.ok
        Option.none 2 ()).get ⟨0, by decide⟩).hunk_count ≤
      ((worker_trace (fun (u : Unit) => (HunkStatus.next, u)) PatchErr.ok
        Option.none 2 ()).get ⟨1, by decide⟩).hunk_count ∧
    ∀ (k : Nat) (hk : k + 1 < (worker_trace
        (fun (u : Unit) => (HunkStatus.next, u)) PatchErr.ok
        Option.none 2 ()).length),
      ((worker_trace (fun (u : Unit) => (HunkStatus.next, u)) PatchErr.ok
          Option.none 2 ()).get ⟨k + 1, hk⟩).hunk_count =
        ((worker_trace (fun (u : Unit) => (HunkStatus.next, u)) PatchErr.ok
            Option.none 2 ()).get ⟨k, Nat.lt_of_succ_lt hk⟩).hunk_count +
          (if ((worker_trace (fun (u : Unit) => (HunkStatus.next, u))
              PatchErr.ok Option.none 2 ()).get
              ⟨k + 1, hk⟩).iter_status = HunkStatus.next then 1 else 0) :=
  c10_hunk_count_monotone (fun (u : Unit) => (HunkStatus.next, u))
    PatchErr.ok Option.none 2 () 0 1 (by decide) (by decide)

end Rombp
